import Mathlib

/-!
Shallow embedding of the attendance-tracker core (`new.py`, class
`AttendanceTracker`) and verification of its specification claims.

Modelling conventions:
* Python dicts become association lists `List (String × α)` with the helper
  operations `lookupK`, `setKey`, `eraseKey` mirroring `d[k]`, `d[k] = v`,
  `del d[k]`.
* Timetable slots are modelled structurally: an entry stores its period
  number (the code stores the string "Period p (time)" and parses the number
  back out; the parse is total on the strings the code itself builds).
* Calendar dates are day indices `ℕ`; the weekday of a date is an explicit
  function parameter `dayName : ℕ → String` standing for
  `date.strftime("%A")`.
* Python's exact `int`/`float` arithmetic is modelled over `ℕ`/`ℤ`/`ℚ`;
  `math.ceil` is `Int.ceil`, `int(x)` (truncation toward zero) is `pyInt`,
  `round(x, 2)` is `round2`.
* A method that can `raise` returns its new state paired with
  `Option String` (the raised message); `none` means normal return.
-/

/-- One attendance ledger record `{'date': ..., 'status': ...}`. -/
structure AttRecord where
  date : String
  status : String
deriving DecidableEq, Repr

/-- One timetable entry `(time, subject)`; the slot string is represented by
its period number. -/
structure Entry where
  period : ℕ
  subj : String
deriving DecidableEq, Repr

/-- A subject `{'name': ..., 'credits': ..., 'is_lab': ...}`. -/
structure Subject where
  name : String
  credits : ℕ
  lab : Bool
deriving DecidableEq, Repr

/-- An initial-attendance seed `{'present': ..., 'absent': ..., 'yet_to_go': ...}`. -/
structure Seed where
  present : ℕ
  absent : ℕ
  yet_to_go : ℕ
deriving DecidableEq, Repr

/-- Dict lookup `m.get(k)` on an association list. -/
def lookupK {α : Type} : List (String × α) → String → Option α
  | [], _ => none
  | kv :: rest, k => if kv.1 = k then some kv.2 else lookupK rest k

/-- Dict update `m[k] = v`: replaces the value at an existing key in place,
otherwise appends the binding (Python dicts preserve insertion order). -/
def setKey {α : Type} (m : List (String × α)) (k : String) (v : α) :
    List (String × α) :=
  if (lookupK m k).isSome then
    m.map (fun kv => if kv.1 = k then (k, v) else kv)
  else m ++ [(k, v)]

/-- Dict deletion `del m[k]`. -/
def eraseKey {α : Type} (m : List (String × α)) (k : String) :
    List (String × α) :=
  m.filter (fun kv => kv.1 ≠ k)

/-- The timetable `{day: [(time, subject), ...]}`. -/
abbrev Timetable := List (String × List Entry)

/-- The entries a day has in the timetable (`[]` when the day is absent). -/
def entriesOf (tt : Timetable) (day : String) : List Entry :=
  (lookupK tt day).getD []

/-- Python `int(x)` on a real value: truncation toward zero. -/
def pyInt (q : ℚ) : ℤ := if q < 0 then ⌈q⌉ else ⌊q⌋

/-- Round-half-to-even to an integer, as Python's builtin `round`. -/
def roundHalfEven (q : ℚ) : ℤ :=
  if q - ⌊q⌋ < 1/2 then ⌊q⌋
  else if 1/2 < q - ⌊q⌋ then ⌊q⌋ + 1
  else if ⌊q⌋ % 2 = 0 then ⌊q⌋ else ⌊q⌋ + 1

/-- Python `round(x, 2)`. -/
def round2 (q : ℚ) : ℚ := (roundHalfEven (q * 100) : ℚ) / 100

/-- `is_lab = self.subjects.get(subject_code, {}).get('is_lab', False)`. -/
def isLab (subjects : List (String × Subject)) (code : String) : Bool :=
  match lookupK subjects code with
  | some s => s.lab
  | none => false

/-- How many timetable slots of one day reference a subject. -/
def countSubject (entries : List Entry) (code : String) : ℕ :=
  entries.countP (fun e => e.subj = code)

/-- `get_remaining_classes`: walk every date from `today` to `endD`
(inclusive); on each date whose weekday is a key of the timetable and which
is not a holiday, add the number of slots referencing the subject. -/
def get_remaining_classes (tt : Timetable) (holidays : List ℕ)
    (dayName : ℕ → String) (today endD : ℕ) (code : String) : ℕ :=
  ((List.range (endD + 1 - today)).map (today + ·)).foldl
    (fun acc d =>
      if (lookupK tt (dayName d)).isSome ∧ d ∉ holidays then
        acc + countSubject (entriesOf tt (dayName d)) code
      else acc) 0

/-- The statistics dict returned by `get_attendance_stats`. -/
structure Stats where
  current_present : ℕ
  current_absent : ℕ
  current_total : ℕ
  percentage : ℚ
  remaining_classes : ℕ
  yet_to_go : ℕ
  classes_needed : ℤ
  total_possible : ℕ
deriving DecidableEq, Repr

/-- `get_attendance_stats(subject_code)`, reading the ledger map, the seed
map and the configuration. -/
def get_attendance_stats (records_map : List (String × List AttRecord))
    (initial_map : List (String × Seed)) (minPct : ℕ) (tt : Timetable)
    (holidays : List ℕ) (dayName : ℕ → String) (today endD : ℕ)
    (code : String) : Stats :=
  let records := (lookupK records_map code).getD []
  let initial := (lookupK initial_map code).getD ⟨0, 0, 0⟩
  let current_present :=
    records.countP (fun r => r.status = "present") + initial.present
  let current_absent :=
    records.countP (fun r => r.status = "absent") + initial.absent
  let remaining := get_remaining_classes tt holidays dayName today endD code
  let yet_to_go := initial.yet_to_go
  let total_possible := current_present + current_absent + yet_to_go
  let current_total := current_present + current_absent
  let current_percentage : ℚ :=
    if 0 < current_total then
      (current_present : ℚ) / (current_total : ℚ) * 100
    else 0
  let classes_needed : ℤ :=
    if 0 < total_possible then
      let min_required_present : ℚ := (minPct * total_possible : ℕ) / 100
      let cn : ℤ := ⌈min_required_present - (current_present : ℚ)⌉
      min (max 0 cn) ((remaining + yet_to_go : ℕ) : ℤ)
    else 0
  { current_present := current_present
    current_absent := current_absent
    current_total := current_total
    percentage := round2 current_percentage
    remaining_classes := remaining
    yet_to_go := yet_to_go
    classes_needed := classes_needed
    total_possible := total_possible }

/-- `calculate_bunkable_classes(subject_code)`. -/
def calculate_bunkable_classes (records_map : List (String × List AttRecord))
    (initial_map : List (String × Seed)) (minPct : ℕ) (tt : Timetable)
    (holidays : List ℕ) (dayName : ℕ → String) (today endD : ℕ)
    (code : String) : ℤ :=
  let stats := get_attendance_stats records_map initial_map minPct tt
    holidays dayName today endD code
  if stats.current_total = 0 then 0
  else
    let min_required_present : ℚ :=
      ((minPct : ℚ) / 100) * (stats.total_possible : ℚ)
    let max_bunkable : ℚ := (stats.total_possible : ℚ) - min_required_present
    max 0 (pyInt (max_bunkable - (stats.current_absent : ℚ)))

/-- The per-subject body of `mark_attendance`: if any record carries the
date, set the status of every record carrying the date, else append a fresh
record. -/
def mark_attendance_list (l : List AttRecord) (d st : String) :
    List AttRecord :=
  if l.any (fun r => r.date = d) then
    l.map (fun r => if r.date = d then { r with status := st } else r)
  else l ++ [⟨d, st⟩]

/-- `mark_attendance(subject_code, date_str, status)` on the ledger map;
`self.attendance_records` is a `defaultdict(list)`, so an absent subject
key reads as `[]` and the mutated list is stored back under the key. -/
def mark_attendance (m : List (String × List AttRecord))
    (code d st : String) : List (String × List AttRecord) :=
  setKey m code (mark_attendance_list ((lookupK m code).getD []) d st)

/-- Insert an entry into a period-sorted list, keeping it sorted. -/
def insertEntry (e : Entry) : List Entry → List Entry
  | [] => [e]
  | f :: rest =>
    if e.period ≤ f.period then e :: f :: rest else f :: insertEntry e rest

/-- `self.timetable[day].sort()`: sort a day's entries by slot order. -/
def sortEntries : List Entry → List Entry
  | [] => []
  | e :: rest => insertEntry e (sortEntries rest)

/-- `if day not in self.timetable: self.timetable[day] = []`. -/
def ensureDay (tt : Timetable) (day : String) : Timetable :=
  if (lookupK tt day).isSome then tt else tt ++ [(day, [])]

/-- `add_timetable_entry(day, period_slot, subject_code)`: returns the new
timetable and, when the lab-placement check fails, the raised message (the
day key has already been materialised by then). -/
def add_timetable_entry (subjects : List (String × Subject)) (tt : Timetable)
    (day : String) (p : ℕ) (code : String) : Timetable × Option String :=
  let tt1 := ensureDay tt day
  let lab := isLab subjects code
  let entries := entriesOf tt1 day
  if lab = true ∧ (7 ≤ p ∨ entries.any (fun e => e.period = p + 1)) then
    (tt1, some "Cannot add lab subject here - requires two consecutive periods")
  else
    let e1 := entries.filter (fun e => e.period ≠ p)
    let e2 := if lab then e1.filter (fun e => e.period ≠ p + 1) else e1
    let e3 := e2 ++ (if lab then [⟨p, code⟩, ⟨p + 1, code⟩] else [⟨p, code⟩])
    (setKey tt1 day (sortEntries e3), none)

/-- The scan of `delete_timetable_entry` over one day's entries: drop every
entry matching (period, subject); after a dropped entry, also drop the next
entry when it carries the same subject code (the `skip_next` flag). -/
def delLoop (p : ℕ) (code : String) : List Entry → List Entry
  | [] => []
  | e :: rest =>
    if e.period = p ∧ e.subj = code then
      match rest with
      | [] => []
      | e2 :: rest2 =>
        if e2.subj = code then delLoop p code rest2
        else delLoop p code (e2 :: rest2)
    else e :: delLoop p code rest

/-- `delete_timetable_entry(day, period_slot, subject_code)`: no-op when
the day is absent; otherwise rebuild the day's list, deleting the day key
when the list becomes empty. -/
def delete_timetable_entry (tt : Timetable) (day : String) (p : ℕ)
    (code : String) : Timetable :=
  match lookupK tt day with
  | none => tt
  | some entries =>
    let ne := delLoop p code entries
    if ne = [] then eraseKey tt day else setKey tt day ne

/-- The tracker components touched by `delete_subject`. -/
structure TrackerState where
  subjects : List (String × Subject)
  attendance_records : List (String × List AttRecord)
  initial_attendance : List (String × Seed)
  timetable : Timetable
deriving Repr

/-- `delete_subject(subject_code)`: when the subject exists, remove it from
the subjects map, drop its ledger records and its seed when present, and
filter it out of every day's timetable entries. -/
def delete_subject (s : TrackerState) (code : String) : TrackerState :=
  if (lookupK s.subjects code).isSome then
    { subjects := eraseKey s.subjects code
      attendance_records :=
        if (lookupK s.attendance_records code).isSome then
          eraseKey s.attendance_records code
        else s.attendance_records
      initial_attendance :=
        if (lookupK s.initial_attendance code).isSome then
          eraseKey s.initial_attendance code
        else s.initial_attendance
      timetable :=
        s.timetable.map (fun kv => (kv.1, kv.2.filter (fun e => e.subj ≠ code))) }
  else s

/-- A lab subject's slots on one day form exactly one chronologically
adjacent pair. -/
def labPairOK (entries : List Entry) (code : String) : Bool :=
  match sortEntries (entries.filter (fun e => e.subj = code)) with
  | [a, b] => b.period = a.period + 1
  | _ => false

/-- Slot uniqueness: on every day, at most one entry per slot. -/
def SlotsUnique (tt : Timetable) : Prop :=
  ∀ de ∈ tt, (de.2.map Entry.period).Nodup

instance : DecidablePred SlotsUnique := fun t =>
  inferInstanceAs (Decidable (∀ de ∈ t, (de.2.map Entry.period).Nodup))

/-- The timetable invariant of the specification: slot uniqueness, and
every lab subject present on a day occupies exactly two chronologically
adjacent slots of that day. -/
def TimetableInv (subjects : List (String × Subject)) (tt : Timetable) :
    Prop :=
  SlotsUnique tt ∧
    ∀ de ∈ tt, ∀ e ∈ de.2, isLab subjects e.subj = true →
      labPairOK de.2 e.subj = true

instance (subjects : List (String × Subject)) :
    DecidablePred (TimetableInv subjects) := fun t =>
  inferInstanceAs (Decidable (SlotsUnique t ∧ _))

/-- The ledger list of one subject (`[]` when the subject has no records). -/
def ledgerOf (m : List (String × List AttRecord)) (code : String) :
    List AttRecord :=
  (lookupK m code).getD []

/-- The effect of deleting one matched entry on the rest of the day's
list: the immediately following entry is dropped as well exactly when it
carries the same subject code. -/
def dropNextSame (code : String) : List Entry → List Entry
  | [] => []
  | e2 :: l2 => if e2.subj = code then l2 else e2 :: l2

section MapLemmas

variable {α : Type}

theorem lookupK_eq_none_iff (m : List (String × α)) (k : String) :
    lookupK m k = none ↔ ∀ kv ∈ m, kv.1 ≠ k := by
  induction m with
  | nil => simp [lookupK]
  | cons kv rest ih =>
    by_cases h : kv.1 = k <;> simp [lookupK, h, ih]

theorem lookupK_mem {m : List (String × α)} {k : String} {v : α}
    (h : lookupK m k = some v) : (k, v) ∈ m := by
  induction m with
  | nil => simp [lookupK] at h
  | cons kv rest ih =>
    by_cases hk : kv.1 = k
    · simp [lookupK, hk] at h
      exact List.mem_cons.mpr (Or.inl (by obtain ⟨a, b⟩ := kv; simp_all))
    · simp [lookupK, hk] at h
      exact List.mem_cons.mpr (Or.inr (ih h))

theorem lookupK_map_set_self (m : List (String × α)) (k : String) (v : α)
    (h : (lookupK m k).isSome) :
    lookupK (m.map (fun kv => if kv.1 = k then (k, v) else kv)) k = some v := by
  induction m with
  | nil => simp [lookupK] at h
  | cons kv rest ih =>
    by_cases hk : kv.1 = k
    · simp [lookupK, hk]
    · simp only [List.map_cons, if_neg hk, lookupK, hk, if_false]
      exact ih (by simpa [lookupK, hk] using h)

theorem lookupK_map_set_ne (m : List (String × α)) (k k' : String) (v : α)
    (h : k' ≠ k) :
    lookupK (m.map (fun kv => if kv.1 = k then (k, v) else kv)) k' =
      lookupK m k' := by
  induction m with
  | nil => simp [lookupK]
  | cons kv rest ih =>
    by_cases hk : kv.1 = k
    · have hk' : kv.1 ≠ k' := by rw [hk]; exact Ne.symm h
      simp [lookupK, hk, Ne.symm h, hk', ih]
    · by_cases hk' : kv.1 = k' <;> simp [lookupK, hk, hk', h, Ne.symm h, ih]

theorem lookupK_append_single_self (m : List (String × α)) (k : String)
    (v : α) (h : lookupK m k = none) :
    lookupK (m ++ [(k, v)]) k = some v := by
  induction m with
  | nil => simp [lookupK]
  | cons kv rest ih =>
    have hk : kv.1 ≠ k := by
      intro hkk
      simp [lookupK, hkk] at h
    simp only [List.cons_append, lookupK, hk, if_false]
    exact ih (by simpa [lookupK, hk] using h)

theorem lookupK_append_single_ne (m : List (String × α)) (k k' : String)
    (v : α) (h : k' ≠ k) :
    lookupK (m ++ [(k, v)]) k' = lookupK m k' := by
  induction m with
  | nil => simp [lookupK, Ne.symm h]
  | cons kv rest ih =>
    by_cases hk' : kv.1 = k' <;> simp [lookupK, hk', ih]

theorem lookupK_setKey_self (m : List (String × α)) (k : String) (v : α) :
    lookupK (setKey m k v) k = some v := by
  unfold setKey
  split
  · exact lookupK_map_set_self m k v (by assumption)
  · refine lookupK_append_single_self m k v ?_
    rename_i h
    cases hl : lookupK m k
    · rfl
    · rw [hl] at h; simp at h

theorem lookupK_setKey_ne (m : List (String × α)) (k k' : String) (v : α)
    (h : k' ≠ k) : lookupK (setKey m k v) k' = lookupK m k' := by
  unfold setKey
  split
  · exact lookupK_map_set_ne m k k' v h
  · exact lookupK_append_single_ne m k k' v h

theorem lookupK_eraseKey_self (m : List (String × α)) (k : String) :
    lookupK (eraseKey m k) k = none := by
  induction m with
  | nil => simp [eraseKey, lookupK]
  | cons kv rest ih =>
    by_cases hk : kv.1 = k
    · simpa [eraseKey, hk] using ih
    · simpa [eraseKey, lookupK, hk] using ih

theorem lookupK_eraseKey_ne (m : List (String × α)) (k k' : String)
    (h : k' ≠ k) : lookupK (eraseKey m k) k' = lookupK m k' := by
  induction m with
  | nil => simp [eraseKey]
  | cons kv rest ih =>
    by_cases hk : kv.1 = k
    · simpa [eraseKey, List.filter_cons, hk, lookupK, Ne.symm h] using ih
    · by_cases hk' : kv.1 = k'
      · simp [eraseKey, List.filter_cons, lookupK, hk, hk', h, Ne.symm h]
      · simpa [eraseKey, List.filter_cons, lookupK, hk, hk'] using ih

theorem mem_setKey {m : List (String × α)} {k : String} {v : α}
    {de : String × α} (h : de ∈ setKey m k v) : de = (k, v) ∨ de ∈ m := by
  unfold setKey at h
  split at h
  · rcases List.mem_map.mp h with ⟨kv, hkv, heq⟩
    by_cases hk : kv.1 = k
    · simp [hk] at heq
      exact Or.inl heq.symm
    · simp [hk] at heq
      exact Or.inr (heq ▸ hkv)
  · rcases List.mem_append.mp h with h' | h'
    · exact Or.inr h'
    · simp at h'
      exact Or.inl h'

theorem mem_eraseKey {m : List (String × α)} {k : String}
    {de : String × α} (h : de ∈ eraseKey m k) : de ∈ m :=
  List.mem_of_mem_filter h

theorem map_set_of_none (m : List (String × α)) (k : String) (w : α)
    (h : lookupK m k = none) :
    m.map (fun kv => if kv.1 = k then (k, w) else kv) = m := by
  induction m with
  | nil => rfl
  | cons kv rest ih =>
    have hk : kv.1 ≠ k := by
      intro hkk
      simp [lookupK, hkk] at h
    simp only [List.map_cons, if_neg hk]
    rw [ih (by simpa [lookupK, hk] using h)]

theorem setKey_eq_map (m : List (String × α)) (k : String) (v : α)
    (h : (lookupK m k).isSome) :
    setKey m k v = m.map (fun kv => if kv.1 = k then (k, v) else kv) := by
  unfold setKey
  rw [if_pos h]

theorem setKey_eq_append (m : List (String × α)) (k : String) (v : α)
    (h : ¬(lookupK m k).isSome) : setKey m k v = m ++ [(k, v)] := by
  unfold setKey
  rw [if_neg h]

theorem setKey_setKey (m : List (String × α)) (k : String) (v w : α) :
    setKey (setKey m k v) k w = setKey m k w := by
  have h1 : (lookupK (setKey m k v) k).isSome := by
    rw [lookupK_setKey_self]; rfl
  rw [setKey_eq_map (setKey m k v) k w h1]
  by_cases h : (lookupK m k).isSome
  · rw [setKey_eq_map m k v h, setKey_eq_map m k w h, List.map_map]
    apply List.map_congr_left
    intro kv _
    by_cases hk : kv.1 = k <;> simp [hk, Function.comp]
  · have h2 : lookupK m k = none := by
      cases hl : lookupK m k
      · rfl
      · rw [hl] at h; simp at h
    rw [setKey_eq_append m k v h, setKey_eq_append m k w h, List.map_append,
      map_set_of_none m k w h2]
    simp

theorem entriesOf_ensureDay (tt : Timetable) (day d : String) :
    entriesOf (ensureDay tt day) d = entriesOf tt d := by
  unfold ensureDay
  split
  · rfl
  · rename_i h
    have h2 : lookupK tt day = none := by
      cases hl : lookupK tt day
      · rfl
      · rw [hl] at h; simp at h
    by_cases hd : d = day
    · subst hd
      unfold entriesOf
      rw [h2, lookupK_append_single_self tt d [] h2]
      rfl
    · unfold entriesOf
      rw [lookupK_append_single_ne tt day d [] hd]

theorem lookupK_ensureDay_isSome (tt : Timetable) (day : String) :
    (lookupK (ensureDay tt day) day).isSome := by
  unfold ensureDay
  split
  · assumption
  · rename_i h
    have h2 : lookupK tt day = none := by
      cases hl : lookupK tt day
      · rfl
      · rw [hl] at h; simp at h
    rw [lookupK_append_single_self tt day [] h2]
    rfl

end MapLemmas

section SortLemmas

theorem insertEntry_perm (e : Entry) (l : List Entry) :
    (insertEntry e l).Perm (e :: l) := by
  induction l with
  | nil => simp [insertEntry]
  | cons f rest ih =>
    unfold insertEntry
    split
    · exact List.Perm.refl _
    · exact ((ih.cons f).trans (List.Perm.swap e f rest)).symm.symm

theorem sortEntries_perm (l : List Entry) : (sortEntries l).Perm l := by
  induction l with
  | nil => simp [sortEntries]
  | cons e rest ih =>
    exact (insertEntry_perm e (sortEntries rest)).trans (ih.cons e)

theorem mem_sortEntries (e : Entry) (l : List Entry) :
    e ∈ sortEntries l ↔ e ∈ l :=
  (sortEntries_perm l).mem_iff

theorem insertEntry_pairwise (e : Entry) (l : List Entry)
    (h : l.Pairwise (fun a b => a.period ≤ b.period)) :
    (insertEntry e l).Pairwise (fun a b => a.period ≤ b.period) := by
  induction l with
  | nil => simp [insertEntry]
  | cons f rest ih =>
    unfold insertEntry
    split
    · rename_i hef
      refine List.Pairwise.cons ?_ h
      intro b hb
      rcases List.mem_cons.mp hb with hb | hb
      · exact hb ▸ hef
      · exact le_trans hef (List.rel_of_pairwise_cons h hb)
    · rename_i hef
      push_neg at hef
      refine List.Pairwise.cons ?_ (ih (List.Pairwise.of_cons h))
      intro b hb
      rcases List.mem_cons.mp ((insertEntry_perm e rest).mem_iff.mp hb) with
        hb | hb
      · exact hb ▸ le_of_lt hef
      · exact List.rel_of_pairwise_cons h hb

theorem sortEntries_pairwise (l : List Entry) :
    (sortEntries l).Pairwise (fun a b => a.period ≤ b.period) := by
  induction l with
  | nil => simp [sortEntries]
  | cons e rest ih => exact insertEntry_pairwise e (sortEntries rest) ih

end SortLemmas

section DelLemmas

theorem delLoop_cons (p : ℕ) (code : String) (e : Entry)
    (rest : List Entry) :
    delLoop p code (e :: rest) =
      if e.period = p ∧ e.subj = code then
        match rest with
        | [] => []
        | e2 :: rest2 =>
          if e2.subj = code then delLoop p code rest2
          else delLoop p code (e2 :: rest2)
      else e :: delLoop p code rest := by
  rw [delLoop.eq_def]

theorem delLoop_sublist (p : ℕ) (code : String) :
    ∀ l : List Entry, (delLoop p code l).Sublist l
  | [] => by rw [delLoop.eq_def]
  | e :: rest => by
    rw [delLoop_cons]
    by_cases hm : e.period = p ∧ e.subj = code
    · rw [if_pos hm]
      cases rest with
      | nil => exact List.nil_sublist _
      | cons e2 rest2 =>
        show (if e2.subj = code then delLoop p code rest2
          else delLoop p code (e2 :: rest2)).Sublist (e :: e2 :: rest2)
        by_cases hs : e2.subj = code
        · rw [if_pos hs]
          exact ((delLoop_sublist p code rest2).cons e2).cons e
        · rw [if_neg hs]
          exact (delLoop_sublist p code (e2 :: rest2)).cons e
    · rw [if_neg hm]
      exact (delLoop_sublist p code rest).cons₂ e

theorem delLoop_of_no_match (p : ℕ) (code : String) (l : List Entry)
    (h : ∀ f ∈ l, ¬(f.period = p ∧ f.subj = code)) :
    delLoop p code l = l := by
  induction l with
  | nil => rfl
  | cons e rest ih =>
    have he : ¬(e.period = p ∧ e.subj = code) :=
      h e (List.mem_cons_self e rest)
    rw [delLoop_cons, if_neg he,
      ih (fun f hf => h f (List.mem_cons_of_mem e hf))]

theorem max0_pyInt (q : ℚ) : max 0 (pyInt q) = max 0 ⌊q⌋ := by
  unfold pyInt
  split
  · rename_i h
    have h1 : ⌈q⌉ ≤ 0 := Int.ceil_le.mpr (by exact_mod_cast le_of_lt h)
    have h2 : ⌊q⌋ ≤ 0 := le_trans (Int.floor_le_ceil q) h1
    rw [max_eq_left h1, max_eq_left h2]
  · rfl

theorem round2_zero : round2 0 = 0 := by
  unfold round2 roundHalfEven
  norm_num

theorem delLoop_append_no_match (p : ℕ) (code : String) (l1 l2 : List Entry)
    (h : ∀ f ∈ l1, ¬(f.period = p ∧ f.subj = code)) :
    delLoop p code (l1 ++ l2) = l1 ++ delLoop p code l2 := by
  induction l1 with
  | nil => rfl
  | cons e rest ih =>
    have he : ¬(e.period = p ∧ e.subj = code) :=
      h e (List.mem_cons_self e rest)
    rw [List.cons_append, delLoop_cons, if_neg he,
      ih (fun f hf => h f (List.mem_cons_of_mem e hf)), List.cons_append]

end DelLemmas

/-! ## Claim theorems -/

/-- C1: for every subject state with non-negative seed counts, any ledger
records and `minPct ∈ [0,100]`, with `present`/`absent` the ledger counts
plus seeds, `totalPossible = present + absent + yetToGo₀` and `remaining`
the calendar forecast: when `totalPossible > 0`, `get_attendance_stats`
returns `classes_needed = clamp(⌈minPct·totalPossible/100⌉ - present, 0,
yetToGo₀ + remaining)`; when `totalPossible = 0` it returns `0`; and in the
CS101 scenario (minPct 75, seed 30/5/10, empty ledger) `totalPossible = 45`
and `classes_needed = 4`. -/
theorem classes_needed_formula
    (rm : List (String × List AttRecord)) (im : List (String × Seed))
    (minPct : ℕ) (tt : Timetable) (hol : List ℕ) (dn : ℕ → String)
    (today endD : ℕ) (code : String)
    (present absent ytg remaining : ℕ)
    (hpct : minPct ≤ 100)
    (hp : present = ((lookupK rm code).getD []).countP
        (fun r => r.status = "present") + ((lookupK im code).getD ⟨0, 0, 0⟩).present)
    (ha : absent = ((lookupK rm code).getD []).countP
        (fun r => r.status = "absent") + ((lookupK im code).getD ⟨0, 0, 0⟩).absent)
    (hy : ytg = ((lookupK im code).getD ⟨0, 0, 0⟩).yet_to_go)
    (hr : remaining = get_remaining_classes tt hol dn today endD code) :
    (0 < present + absent + ytg →
      (get_attendance_stats rm im minPct tt hol dn today endD code).classes_needed =
        min (max 0 (⌈(minPct * (present + absent + ytg) : ℚ) / 100⌉ - present))
          ((ytg + remaining : ℕ) : ℤ)) ∧
    (present + absent + ytg = 0 →
      (get_attendance_stats rm im minPct tt hol dn today endD code).classes_needed = 0) ∧
    (rm = [] ∧ lookupK im "CS101" = some ⟨30, 5, 10⟩ ∧ minPct = 75 ∧
        code = "CS101" →
      (get_attendance_stats rm im minPct tt hol dn today endD code).total_possible = 45 ∧
      (get_attendance_stats rm im minPct tt hol dn today endD code).classes_needed = 4) := by
  refine ⟨?_, ?_, ?_⟩
  · intro htp
    simp only [get_attendance_stats]
    rw [← hp, ← ha, ← hy, ← hr, if_pos htp]
    have hc1 : (((minPct * (present + absent + ytg) : ℕ)) : ℚ) / 100 =
        (minPct * (present + absent + ytg) : ℚ) / 100 := by
      push_cast
      ring
    have hc2 : ((present : ℤ) : ℚ) = (present : ℚ) := by push_cast; ring
    rw [hc1, ← hc2, Int.ceil_sub_int]
    have hc3 : ((remaining + ytg : ℕ) : ℤ) = ((ytg + remaining : ℕ) : ℤ) := by
      push_cast
      ring
    rw [hc3]
  · intro htp
    simp only [get_attendance_stats]
    rw [← hp, ← ha, ← hy, htp]
    simp
  · rintro ⟨h1, h2, h3, h4⟩
    subst h1 h3 h4
    have hll : lookupK ([] : List (String × List AttRecord)) "CS101" = none := rfl
    constructor
    · simp only [get_attendance_stats]
      rw [hll, h2]
      rfl
    · simp only [get_attendance_stats]
      rw [hll, h2]
      show (if 0 < 0 + 30 + (0 + 5) + 10 then
          min (max 0 ⌈(((75 * (0 + 30 + (0 + 5) + 10) : ℕ)) : ℚ) / 100 -
            ((0 + 30 : ℕ) : ℚ)⌉)
            ((get_remaining_classes tt hol dn today endD "CS101" + 10 : ℕ) : ℤ)
        else 0) = 4
      rw [if_pos (by norm_num)]
      have hceil : (⌈(((75 * (0 + 30 + (0 + 5) + 10) : ℕ)) : ℚ) / 100 -
          ((0 + 30 : ℕ) : ℚ)⌉ : ℤ) = 4 := by
        rw [Int.ceil_eq_iff]
        norm_num
      rw [hceil]
      rw [max_eq_right (by norm_num : (0 : ℤ) ≤ 4)]
      rw [min_eq_left (by push_cast; omega)]

/-- Witness for C1 at the CS101 scenario input. -/
theorem classes_needed_formula_witness :
    (get_attendance_stats [] [("CS101", ⟨30, 5, 10⟩)] 75 [] []
      (fun _ => "Monday") 0 0 "CS101").total_possible = 45 ∧
    (get_attendance_stats [] [("CS101", ⟨30, 5, 10⟩)] 75 [] []
      (fun _ => "Monday") 0 0 "CS101").classes_needed = 4 :=
  (classes_needed_formula [] [("CS101", ⟨30, 5, 10⟩)] 75 [] []
    (fun _ => "Monday") 0 0 "CS101" 30 5 10 0 (by norm_num) rfl rfl rfl
    rfl).2.2 ⟨rfl, rfl, rfl, rfl⟩

/-- C2: for every input state with `minPct ∈ [0,100]`, the `classes_needed`
value returned by `get_attendance_stats` lies in
`[0, yetToGo₀ + remaining]`, `remaining` being the calendar forecast. -/
theorem classes_needed_bounds
    (rm : List (String × List AttRecord)) (im : List (String × Seed))
    (minPct : ℕ) (tt : Timetable) (hol : List ℕ) (dn : ℕ → String)
    (today endD : ℕ) (code : String)
    (hpct : minPct ≤ 100) :
    0 ≤ (get_attendance_stats rm im minPct tt hol dn today endD code).classes_needed ∧
    (get_attendance_stats rm im minPct tt hol dn today endD code).classes_needed ≤
      ((((lookupK im code).getD ⟨0, 0, 0⟩).yet_to_go +
        get_remaining_classes tt hol dn today endD code : ℕ) : ℤ) := by
  simp only [get_attendance_stats]
  constructor
  · split
    · exact le_min (le_max_left 0 _) (by positivity)
    · exact le_refl 0
  · split
    · refine le_trans (min_le_right _ _) ?_
      push_cast
      omega
    · positivity

/-- Witness for C2 at a concrete input. -/
theorem classes_needed_bounds_witness :
    0 ≤ (get_attendance_stats [] [("CS101", ⟨30, 5, 10⟩)] 75 [] []
      (fun _ => "Monday") 0 0 "CS101").classes_needed ∧
    (get_attendance_stats [] [("CS101", ⟨30, 5, 10⟩)] 75 [] []
      (fun _ => "Monday") 0 0 "CS101").classes_needed ≤
      ((((lookupK [("CS101", (⟨30, 5, 10⟩ : Seed))] "CS101").getD
        ⟨0, 0, 0⟩).yet_to_go +
        get_remaining_classes [] [] (fun _ => "Monday") 0 0 "CS101" : ℕ) : ℤ) :=
  classes_needed_bounds [] [("CS101", ⟨30, 5, 10⟩)] 75 [] []
    (fun _ => "Monday") 0 0 "CS101" (by norm_num)

/-- C3: whenever `held = present + absent > 0` (ledger counts plus seeds),
`calculate_bunkable_classes` returns
`max 0 ⌊totalPossible - (minPct/100)·totalPossible - absent⌋`, and it
returns `0` when `held = 0`. -/
theorem bunkable_formula
    (rm : List (String × List AttRecord)) (im : List (String × Seed))
    (minPct : ℕ) (tt : Timetable) (hol : List ℕ) (dn : ℕ → String)
    (today endD : ℕ) (code : String)
    (present absent tp : ℕ)
    (hp : present = ((lookupK rm code).getD []).countP
        (fun r => r.status = "present") + ((lookupK im code).getD ⟨0, 0, 0⟩).present)
    (ha : absent = ((lookupK rm code).getD []).countP
        (fun r => r.status = "absent") + ((lookupK im code).getD ⟨0, 0, 0⟩).absent)
    (htp : tp = present + absent + ((lookupK im code).getD ⟨0, 0, 0⟩).yet_to_go) :
    (0 < present + absent →
      calculate_bunkable_classes rm im minPct tt hol dn today endD code =
        max 0 ⌊(tp : ℚ) - ((minPct : ℚ) / 100) * (tp : ℚ) - (absent : ℚ)⌋) ∧
    (present + absent = 0 →
      calculate_bunkable_classes rm im minPct tt hol dn today endD code = 0) := by
  constructor
  · intro hheld
    unfold calculate_bunkable_classes
    simp only [get_attendance_stats]
    rw [← hp, ← ha, ← htp]
    rw [if_neg (by omega)]
    exact max0_pyInt _
  · intro hheld
    unfold calculate_bunkable_classes
    simp only [get_attendance_stats]
    rw [← hp, ← ha]
    rw [if_pos hheld]

/-- Witness for C3 at a concrete input (the CS101 scenario: tp = 45,
bunkable = ⌊45 - 33.75 - 5⌋ = 6). -/
theorem bunkable_formula_witness :
    calculate_bunkable_classes [] [("CS101", ⟨30, 5, 10⟩)] 75 [] []
      (fun _ => "Monday") 0 0 "CS101" =
      max 0 ⌊(45 : ℚ) - ((75 : ℚ) / 100) * (45 : ℚ) - (5 : ℚ)⌋ :=
  (bunkable_formula [] [("CS101", ⟨30, 5, 10⟩)] 75 [] []
    (fun _ => "Monday") 0 0 "CS101" 30 5 45 rfl rfl rfl).1 (by norm_num)

/-- C4: when the held-class count is zero, `get_attendance_stats` reports
`percentage = 0` and `calculate_bunkable_classes` reports `0` (both
operations are total functions: the zero denominator is guarded, never
divided by). -/
theorem zero_held_safe
    (rm : List (String × List AttRecord)) (im : List (String × Seed))
    (minPct : ℕ) (tt : Timetable) (hol : List ℕ) (dn : ℕ → String)
    (today endD : ℕ) (code : String)
    (hheld : (get_attendance_stats rm im minPct tt hol dn today endD
      code).current_total = 0) :
    (get_attendance_stats rm im minPct tt hol dn today endD code).percentage = 0 ∧
    calculate_bunkable_classes rm im minPct tt hol dn today endD code = 0 := by
  simp only [get_attendance_stats] at hheld
  constructor
  · simp only [get_attendance_stats]
    rw [if_neg (by omega)]
    exact round2_zero
  · unfold calculate_bunkable_classes
    simp only [get_attendance_stats]
    rw [if_pos hheld]

/-- Witness for C4 at a concrete input with an empty ledger and no seed. -/
theorem zero_held_safe_witness :
    (get_attendance_stats [] [] 75 [] [] (fun _ => "Monday") 0 0
      "X").current_total = 0 ∧
    (get_attendance_stats [] [] 75 [] [] (fun _ => "Monday") 0 0
      "X").percentage = 0 ∧
    calculate_bunkable_classes [] [] 75 [] [] (fun _ => "Monday") 0 0 "X" = 0 :=
  ⟨rfl, zero_held_safe [] [] 75 [] [] (fun _ => "Monday") 0 0 "X" rfl⟩

theorem mark_date_eq (d st : String) (r : AttRecord) :
    (if r.date = d then { r with status := st } else r).date = r.date := by
  split <;> rfl

theorem mark_list_map_eq (l : List AttRecord) (d st : String)
    (h : l.any (fun r => r.date = d) = true) :
    mark_attendance_list l d st =
      l.map (fun r => if r.date = d then { r with status := st } else r) := by
  unfold mark_attendance_list
  rw [if_pos h]

theorem mark_list_append_eq (l : List AttRecord) (d st : String)
    (h : l.any (fun r => r.date = d) = false) :
    mark_attendance_list l d st = l ++ [⟨d, st⟩] := by
  unfold mark_attendance_list
  rw [if_neg (by simp [h])]

theorem mark_list_idem (l : List AttRecord) (d st : String) :
    mark_attendance_list (mark_attendance_list l d st) d st =
      mark_attendance_list l d st := by
  by_cases h : l.any (fun r => r.date = d) = true
  · rw [mark_list_map_eq l d st h]
    have h2 : (l.map (fun r => if r.date = d then { r with status := st }
        else r)).any (fun r => r.date = d) = true := by
      rw [List.any_map]
      rw [List.any_eq_true] at h ⊢
      obtain ⟨r, hr, hrd⟩ := h
      refine ⟨r, hr, ?_⟩
      simp only [Function.comp, mark_date_eq]
      exact hrd
    rw [mark_list_map_eq _ d st h2, List.map_map]
    apply List.map_congr_left
    intro r _
    by_cases hd : r.date = d <;> simp [Function.comp, hd]
  · have h0 : l.any (fun r => r.date = d) = false := eq_false_of_ne_true h
    rw [mark_list_append_eq l d st h0]
    have h2 : (l ++ [(⟨d, st⟩ : AttRecord)]).any
        (fun r => r.date = d) = true := by simp
    rw [mark_list_map_eq _ d st h2, List.map_append]
    have hne : ∀ r ∈ l, r.date ≠ d := by
      intro r hr
      have := List.any_eq_false.mp h0 r hr
      simpa using this
    congr 1
    · rw [show l.map (fun r => if r.date = d then { r with status := st }
          else r) = l.map id from
        List.map_congr_left (fun r hr => by simp [hne r hr])]
      simp
    · simp

theorem mark_list_countP (l : List AttRecord) (d st : String) :
    (mark_attendance_list l d st).countP (fun r => r.date = d) =
      max 1 (l.countP (fun r => r.date = d)) := by
  by_cases h : l.any (fun r => r.date = d) = true
  · rw [mark_list_map_eq l d st h]
    have hc : (l.map (fun r => if r.date = d then { r with status := st }
        else r)).countP (fun r => r.date = d) =
        l.countP (fun r => r.date = d) := by
      rw [List.countP_map]
      apply List.countP_congr
      intro r _
      simp only [Function.comp, mark_date_eq]
    rw [hc]
    rw [List.any_eq_true] at h
    obtain ⟨r, hr, hrd⟩ := h
    have h1 : 0 < l.countP (fun r => r.date = d) :=
      List.countP_pos_iff.mpr ⟨r, hr, hrd⟩
    omega
  · have h0 : l.any (fun r => r.date = d) = false := eq_false_of_ne_true h
    rw [mark_list_append_eq l d st h0, List.countP_append]
    have hz : l.countP (fun r => r.date = d) = 0 := by
      rw [List.countP_eq_zero]
      intro r hr
      have := List.any_eq_false.mp h0 r hr
      simpa using this
    simp [hz]

theorem mark_list_status (l : List AttRecord) (d st : String) :
    ∀ r ∈ mark_attendance_list l d st, r.date = d → r.status = st := by
  intro r hr hrd
  unfold mark_attendance_list at hr
  split at hr
  · rcases List.mem_map.mp hr with ⟨r0, hr0, heq⟩
    by_cases hd0 : r0.date = d
    · rw [← heq]
      simp [hd0]
    · rw [if_neg hd0] at heq
      rw [← heq] at hrd
      exact absurd hrd hd0
  · rcases List.mem_append.mp hr with h' | h'
    · rename_i hfalse
      exfalso
      apply hfalse
      rw [List.any_eq_true]
      exact ⟨r, h', by simpa using hrd⟩
    · simp at h'
      rw [h']

theorem mark_list_upsert_filter (l : List AttRecord) (d : String)
    (hdup : l.countP (fun r => r.date = d) ≤ 1) :
    (mark_attendance_list (mark_attendance_list l d "present") d
      "absent").filter (fun r => r.date = d) = [⟨d, "absent"⟩] := by
  have hcount : (mark_attendance_list (mark_attendance_list l d "present") d
      "absent").countP (fun r => r.date = d) = 1 := by
    rw [mark_list_countP, mark_list_countP]
    omega
  have hlen : ((mark_attendance_list (mark_attendance_list l d "present") d
      "absent").filter (fun r => r.date = d)).length = 1 := by
    rw [← List.countP_eq_length_filter]
    exact hcount
  obtain ⟨a, ha⟩ := List.length_eq_one.mp hlen
  have hmem : a ∈ (mark_attendance_list (mark_attendance_list l d "present") d
      "absent").filter (fun r => r.date = d) := by
    rw [ha]
    simp
  have had : a.date = d := by simpa using List.of_mem_filter hmem
  have has : a.status = "absent" :=
    mark_list_status _ d "absent" a (List.mem_of_mem_filter hmem) had
  rw [ha]
  obtain ⟨ad, as⟩ := a
  simp_all

theorem ledgerOf_mark (m : List (String × List AttRecord)) (S d st : String) :
    ledgerOf (mark_attendance m S d st) S =
      mark_attendance_list (ledgerOf m S) d st := by
  unfold mark_attendance ledgerOf
  rw [lookupK_setKey_self]
  rfl

/-- C5: `mark_attendance(S, D, status)` has upsert semantics on a ledger
with at most one record per date: the status is replaced in place when a
record for the date exists, a fresh record is appended otherwise; marking
twice with the same arguments equals marking once; and marking 'present'
then 'absent' leaves exactly one record for (S, D), with status 'absent'. -/
theorem mark_attendance_upsert (m : List (String × List AttRecord))
    (S d st : String)
    (hdup : (ledgerOf m S).countP (fun r => r.date = d) ≤ 1) :
    ((∃ r ∈ ledgerOf m S, r.date = d) →
      ledgerOf (mark_attendance m S d st) S =
        (ledgerOf m S).map
          (fun r => if r.date = d then { r with status := st } else r)) ∧
    ((¬∃ r ∈ ledgerOf m S, r.date = d) →
      ledgerOf (mark_attendance m S d st) S = ledgerOf m S ++ [⟨d, st⟩]) ∧
    mark_attendance (mark_attendance m S d st) S d st =
      mark_attendance m S d st ∧
    (ledgerOf (mark_attendance (mark_attendance m S d "present") S d
      "absent") S).filter (fun r => r.date = d) = [⟨d, "absent"⟩] := by
  refine ⟨?_, ?_, ?_, ?_⟩
  · intro hex
    rw [ledgerOf_mark]
    apply mark_list_map_eq
    rw [List.any_eq_true]
    obtain ⟨r, hr, hrd⟩ := hex
    exact ⟨r, hr, by simpa using hrd⟩
  · intro hnex
    rw [ledgerOf_mark]
    apply mark_list_append_eq
    rw [List.any_eq_false]
    intro r hr
    simp only [decide_eq_true_eq]
    exact fun hrd => hnex ⟨r, hr, hrd⟩
  · show mark_attendance (mark_attendance m S d st) S d st =
      mark_attendance m S d st
    unfold mark_attendance
    rw [lookupK_setKey_self]
    show setKey (setKey m S (mark_attendance_list ((lookupK m S).getD []) d st))
        S (mark_attendance_list
          (mark_attendance_list ((lookupK m S).getD []) d st) d st) =
      setKey m S (mark_attendance_list ((lookupK m S).getD []) d st)
    rw [mark_list_idem, setKey_setKey]
  · rw [ledgerOf_mark, ledgerOf_mark]
    exact mark_list_upsert_filter (ledgerOf m S) d hdup

/-- Witness for C5 at a concrete ledger holding one record for the date. -/
theorem mark_attendance_upsert_witness :
    (ledgerOf [("CS101", [⟨"2025-01-01", "present"⟩])] "CS101").countP
      (fun r => r.date = "2025-01-01") ≤ 1 ∧
    mark_attendance (mark_attendance [("CS101", [⟨"2025-01-01", "present"⟩])]
        "CS101" "2025-01-01" "absent") "CS101" "2025-01-01" "absent" =
      mark_attendance [("CS101", [⟨"2025-01-01", "present"⟩])] "CS101"
        "2025-01-01" "absent" :=
  ⟨by decide,
    (mark_attendance_upsert [("CS101", [⟨"2025-01-01", "present"⟩])] "CS101"
      "2025-01-01" "absent" (by decide)).2.2.1⟩

/-- C9: for any state whose subjects map contains S, `delete_subject(S)`
removes S from the subjects map, drops all of S's ledger records and its
seed, and removes every timetable entry referencing S on every day: no
component of the resulting state references S. -/
theorem delete_subject_cascades (s : TrackerState) (code : String)
    (h : (lookupK s.subjects code).isSome) :
    lookupK (delete_subject s code).subjects code = none ∧
    lookupK (delete_subject s code).attendance_records code = none ∧
    lookupK (delete_subject s code).initial_attendance code = none ∧
    ∀ de ∈ (delete_subject s code).timetable, ∀ e ∈ de.2, e.subj ≠ code := by
  unfold delete_subject
  rw [if_pos h]
  refine ⟨?_, ?_, ?_, ?_⟩
  · show lookupK (eraseKey s.subjects code) code = none
    exact lookupK_eraseKey_self s.subjects code
  · show lookupK (if (lookupK s.attendance_records code).isSome then
        eraseKey s.attendance_records code
      else s.attendance_records) code = none
    split
    · exact lookupK_eraseKey_self s.attendance_records code
    · rename_i h2
      exact Option.not_isSome_iff_eq_none.mp h2
  · show lookupK (if (lookupK s.initial_attendance code).isSome then
        eraseKey s.initial_attendance code
      else s.initial_attendance) code = none
    split
    · exact lookupK_eraseKey_self s.initial_attendance code
    · rename_i h2
      exact Option.not_isSome_iff_eq_none.mp h2
  · show ∀ de ∈ s.timetable.map
        (fun kv => (kv.1, kv.2.filter (fun e => e.subj ≠ code))),
      ∀ e ∈ de.2, e.subj ≠ code
    intro de hde e he
    rcases List.mem_map.mp hde with ⟨kv, _, hkv⟩
    rw [← hkv] at he
    have := List.of_mem_filter he
    simpa using this

/-- Witness for C9 at a concrete state containing subject S everywhere. -/
theorem delete_subject_cascades_witness :
    (lookupK (TrackerState.mk [("S", ⟨"s", 1, false⟩)]
      [("S", [⟨"d", "present"⟩])] [("S", ⟨1, 2, 3⟩)]
      [("Mon", [⟨1, "S"⟩, ⟨2, "T"⟩])]).subjects "S").isSome = true ∧
    lookupK (delete_subject (TrackerState.mk [("S", ⟨"s", 1, false⟩)]
      [("S", [⟨"d", "present"⟩])] [("S", ⟨1, 2, 3⟩)]
      [("Mon", [⟨1, "S"⟩, ⟨2, "T"⟩])]) "S").subjects "S" = none ∧
    (∀ de ∈ (delete_subject (TrackerState.mk [("S", ⟨"s", 1, false⟩)]
      [("S", [⟨"d", "present"⟩])] [("S", ⟨1, 2, 3⟩)]
      [("Mon", [⟨1, "S"⟩, ⟨2, "T"⟩])]) "S").timetable,
      ∀ e ∈ de.2, e.subj ≠ "S") :=
  ⟨by decide,
    (delete_subject_cascades (TrackerState.mk [("S", ⟨"s", 1, false⟩)]
      [("S", [⟨"d", "present"⟩])] [("S", ⟨1, 2, 3⟩)]
      [("Mon", [⟨1, "S"⟩, ⟨2, "T"⟩])]) "S" (by decide)).1,
    (delete_subject_cascades (TrackerState.mk [("S", ⟨"s", 1, false⟩)]
      [("S", [⟨"d", "present"⟩])] [("S", ⟨1, 2, 3⟩)]
      [("Mon", [⟨1, "S"⟩, ⟨2, "T"⟩])]) "S" (by decide)).2.2.2⟩

/-- C10: `mark_attendance(S, D, s)` never fails, for unknown subject codes
included: it auto-creates the subject's ledger (the map is a
`defaultdict`), so afterwards the ledger of S holds a record for date D
with status s; when S had no ledger key at all, its ledger becomes exactly
the one fresh record. -/
theorem mark_attendance_unknown_subject
    (m : List (String × List AttRecord)) (S d st : String) :
    (∃ r ∈ ledgerOf (mark_attendance m S d st) S,
      r.date = d ∧ r.status = st) ∧
    (lookupK m S = none →
      ledgerOf (mark_attendance m S d st) S = [⟨d, st⟩]) := by
  constructor
  · rw [ledgerOf_mark]
    by_cases h : (ledgerOf m S).any (fun r => r.date = d) = true
    · rw [List.any_eq_true] at h
      obtain ⟨r, hr, hrd⟩ := h
      simp only [decide_eq_true_eq] at hrd
      have hmem : (if r.date = d then { r with status := st } else r) ∈
          mark_attendance_list (ledgerOf m S) d st := by
        rw [mark_list_map_eq (ledgerOf m S) d st
          (List.any_eq_true.mpr ⟨r, hr, by simpa using hrd⟩)]
        exact List.mem_map_of_mem _ hr
      refine ⟨_, hmem, ?_, ?_⟩
      · rw [mark_date_eq]
        exact hrd
      · simp [hrd]
    · rw [mark_list_append_eq (ledgerOf m S) d st (eq_false_of_ne_true h)]
      exact ⟨⟨d, st⟩, by simp, rfl, rfl⟩
  · intro hnone
    rw [ledgerOf_mark]
    have hl : ledgerOf m S = [] := by
      unfold ledgerOf
      rw [hnone]
      rfl
    rw [hl]
    rfl

/-- Witness for C10 at an empty ledger map (unknown subject). -/
theorem mark_attendance_unknown_subject_witness :
    (∃ r ∈ ledgerOf (mark_attendance [] "NEW" "2025-01-01" "present") "NEW",
      r.date = "2025-01-01" ∧ r.status = "present") ∧
    (lookupK ([] : List (String × List AttRecord)) "NEW" = none →
      ledgerOf (mark_attendance [] "NEW" "2025-01-01" "present") "NEW" =
        [⟨"2025-01-01", "present"⟩]) :=
  mark_attendance_unknown_subject [] "NEW" "2025-01-01" "present"

theorem add_fail_eq (subjects : List (String × Subject)) (tt : Timetable)
    (day : String) (p : ℕ) (code : String)
    (hc : isLab subjects code = true ∧ (7 ≤ p ∨
      (entriesOf (ensureDay tt day) day).any
        (fun e => e.period = p + 1) = true)) :
    add_timetable_entry subjects tt day p code =
      (ensureDay tt day,
        some "Cannot add lab subject here - requires two consecutive periods") := by
  simp only [add_timetable_entry]
  rw [if_pos hc]

theorem add_ok_eq (subjects : List (String × Subject)) (tt : Timetable)
    (day : String) (p : ℕ) (code : String)
    (hc : ¬(isLab subjects code = true ∧ (7 ≤ p ∨
      (entriesOf (ensureDay tt day) day).any
        (fun e => e.period = p + 1) = true))) :
    add_timetable_entry subjects tt day p code =
      (setKey (ensureDay tt day) day (sortEntries
        ((if isLab subjects code then
            ((entriesOf (ensureDay tt day) day).filter
              (fun e => e.period ≠ p)).filter (fun e => e.period ≠ p + 1)
          else (entriesOf (ensureDay tt day) day).filter
            (fun e => e.period ≠ p)) ++
          (if isLab subjects code then [⟨p, code⟩, ⟨p + 1, code⟩]
            else [⟨p, code⟩]))), none) := by
  simp only [add_timetable_entry]
  rw [if_neg hc]

/-- C6 counterexample: the claim says a failing `add_timetable_entry` call
leaves the timetable unchanged, but the day key is materialised before the
conflict check, so a failing call on a previously absent day changes the
timetable mapping. -/
theorem add_lab_conflict_mutates_timetable :
    (add_timetable_entry [("L", ⟨"lab", 1, true⟩)] [] "Monday" 7 "L").2.isSome =
      true ∧
    (add_timetable_entry [("L", ⟨"lab", 1, true⟩)] [] "Monday" 7 "L").1 ≠
      ([] : Timetable) ∧
    (add_timetable_entry [("L", ⟨"lab", 1, true⟩)] [] "Monday" 7 "L").1 =
      [("Monday", [])] := by
  refine ⟨?_, ?_, ?_⟩ <;> decide

/-- C6 (amended): with a slot in the 1..7 period range,
`add_timetable_entry` raises exactly when the subject is a lab subject and
the slot is the last period or the following slot is occupied; on success
it overwrites the occupants of the target slot(s) and re-sorts the day's
entries, leaving other days unchanged; a failing call leaves every day's
entry list unchanged (though it may create an empty entry list for a
previously absent day). -/
theorem add_timetable_conflict_amended (subjects : List (String × Subject))
    (tt : Timetable) (day : String) (p : ℕ) (code : String)
    (hp1 : 1 ≤ p) (hp7 : p ≤ 7) :
    ((add_timetable_entry subjects tt day p code).2.isSome ↔
      isLab subjects code = true ∧
        (p = 7 ∨ ∃ e ∈ entriesOf tt day, e.period = p + 1)) ∧
    ((add_timetable_entry subjects tt day p code).2.isSome →
      ∀ d, entriesOf (add_timetable_entry subjects tt day p code).1 d =
        entriesOf tt d) ∧
    ((add_timetable_entry subjects tt day p code).2 = none →
      (∀ d, d ≠ day →
        entriesOf (add_timetable_entry subjects tt day p code).1 d =
          entriesOf tt d) ∧
      (entriesOf (add_timetable_entry subjects tt day p code).1 day).Pairwise
        (fun a b => a.period ≤ b.period) ∧
      (∀ e : Entry,
        e ∈ entriesOf (add_timetable_entry subjects tt day p code).1 day ↔
          e = ⟨p, code⟩ ∨
          (isLab subjects code = true ∧ e = ⟨p + 1, code⟩) ∨
          (e ∈ entriesOf tt day ∧ e.period ≠ p ∧
            (isLab subjects code = true → e.period ≠ p + 1)))) := by
  have hcond : (isLab subjects code = true ∧ (7 ≤ p ∨
      (entriesOf (ensureDay tt day) day).any
        (fun e => e.period = p + 1) = true)) ↔
      (isLab subjects code = true ∧
        (p = 7 ∨ ∃ e ∈ entriesOf tt day, e.period = p + 1)) := by
    rw [entriesOf_ensureDay tt day day]
    constructor
    · rintro ⟨hl, hor⟩
      refine ⟨hl, ?_⟩
      rcases hor with h7 | hany
      · exact Or.inl (by omega)
      · rw [List.any_eq_true] at hany
        obtain ⟨e, he, hep⟩ := hany
        exact Or.inr ⟨e, he, by simpa using hep⟩
    · rintro ⟨hl, hor⟩
      refine ⟨hl, ?_⟩
      rcases hor with h7 | ⟨e, he, hep⟩
      · exact Or.inl (by omega)
      · exact Or.inr (List.any_eq_true.mpr ⟨e, he, by simpa using hep⟩)
  by_cases hc : isLab subjects code = true ∧ (7 ≤ p ∨
      (entriesOf (ensureDay tt day) day).any
        (fun e => e.period = p + 1) = true)
  · rw [add_fail_eq subjects tt day p code hc]
    refine ⟨?_, ?_, ?_⟩
    · simpa using hcond.mp hc
    · intro _ d
      exact entriesOf_ensureDay tt day d
    · intro habs
      simp at habs
  · rw [add_ok_eq subjects tt day p code hc]
    refine ⟨?_, ?_, ?_⟩
    · simp only [Option.isSome_none, Bool.false_eq_true, false_iff]
      exact fun h => hc (hcond.mpr h)
    · intro habs
      simp at habs
    · intro _
      have hset : entriesOf (setKey (ensureDay tt day) day (sortEntries
          ((if isLab subjects code then
              ((entriesOf (ensureDay tt day) day).filter
                (fun e => e.period ≠ p)).filter (fun e => e.period ≠ p + 1)
            else (entriesOf (ensureDay tt day) day).filter
              (fun e => e.period ≠ p)) ++
            (if isLab subjects code then [⟨p, code⟩, ⟨p + 1, code⟩]
              else [⟨p, code⟩])))) day = sortEntries
          ((if isLab subjects code then
              ((entriesOf (ensureDay tt day) day).filter
                (fun e => e.period ≠ p)).filter (fun e => e.period ≠ p + 1)
            else (entriesOf (ensureDay tt day) day).filter
              (fun e => e.period ≠ p)) ++
            (if isLab subjects code then [⟨p, code⟩, ⟨p + 1, code⟩]
              else [⟨p, code⟩])) := by
        unfold entriesOf
        rw [lookupK_setKey_self]
        rfl
      refine ⟨?_, ?_, ?_⟩
      · intro d hd
        show entriesOf (setKey (ensureDay tt day) day _) d = entriesOf tt d
        rw [← entriesOf_ensureDay tt day d]
        unfold entriesOf
        rw [lookupK_setKey_ne _ day d _ hd]
      · rw [hset]
        exact sortEntries_pairwise _
      · intro e
        rw [hset, mem_sortEntries, List.mem_append,
          entriesOf_ensureDay tt day day]
        by_cases hl : isLab subjects code = true
        · rw [if_pos hl, if_pos hl]
          constructor
          · rintro (hmem | hnew)
            · rcases List.mem_filter.mp hmem with ⟨hmem1, hne1⟩
              rcases List.mem_filter.mp hmem1 with ⟨hin, hne⟩
              exact Or.inr (Or.inr ⟨hin, by simpa using hne,
                fun _ => by simpa using hne1⟩)
            · simp at hnew
              rcases hnew with rfl | rfl
              · exact Or.inl rfl
              · exact Or.inr (Or.inl ⟨hl, rfl⟩)
          · rintro (rfl | ⟨_, rfl⟩ | ⟨hin, hne, hne1⟩)
            · exact Or.inr (by simp)
            · exact Or.inr (by simp)
            · exact Or.inl (List.mem_filter.mpr
                ⟨List.mem_filter.mpr ⟨hin, by simpa using hne⟩,
                  by simpa using hne1 hl⟩)
        · rw [if_neg hl, if_neg hl]
          constructor
          · rintro (hmem | hnew)
            · rcases List.mem_filter.mp hmem with ⟨hin, hne⟩
              exact Or.inr (Or.inr ⟨hin, by simpa using hne,
                fun h => absurd h hl⟩)
            · simp at hnew
              exact Or.inl hnew
          · rintro (rfl | ⟨hfalse, _⟩ | ⟨hin, hne, _⟩)
            · exact Or.inr (by simp)
            · exact absurd hfalse hl
            · exact Or.inl (List.mem_filter.mpr ⟨hin, by simpa using hne⟩)

/-- Witness for the amended C6: the error-condition characterisation at a
concrete lab subject placed at the last period. -/
theorem add_timetable_conflict_amended_witness :
    (add_timetable_entry [("L", ⟨"lab", 1, true⟩)] [] "Monday" 7
      "L").2.isSome ↔
      isLab [("L", ⟨"lab", 1, true⟩)] "L" = true ∧
        (7 = 7 ∨ ∃ e ∈ entriesOf ([] : Timetable) "Monday",
          e.period = 7 + 1) :=
  (add_timetable_conflict_amended [("L", ⟨"lab", 1, true⟩)] [] "Monday" 7 "L"
    (by norm_num) (by norm_num)).1

theorem mem_ensureDay {tt : Timetable} {day : String} {de : String × List Entry}
    (h : de ∈ ensureDay tt day) : de ∈ tt ∨ de = (day, ([] : List Entry)) := by
  unfold ensureDay at h
  split at h
  · exact Or.inl h
  · rcases List.mem_append.mp h with h' | h'
    · exact Or.inl h'
    · simp at h'
      exact Or.inr h'

theorem slotsUnique_ensureDay (tt : Timetable) (day : String)
    (h : SlotsUnique tt) : SlotsUnique (ensureDay tt day) := by
  intro de hde
  rcases mem_ensureDay hde with h' | h'
  · exact h de h'
  · rw [h']
    simp

theorem delete_none_eq (tt : Timetable) (day : String) (p : ℕ) (code : String)
    (h : lookupK tt day = none) : delete_timetable_entry tt day p code = tt := by
  unfold delete_timetable_entry
  rw [h]

theorem delete_some_eq (tt : Timetable) (day : String) (p : ℕ) (code : String)
    (es : List Entry) (h : lookupK tt day = some es) :
    delete_timetable_entry tt day p code =
      (if delLoop p code es = [] then eraseKey tt day
        else setKey tt day (delLoop p code es)) := by
  unfold delete_timetable_entry
  rw [h]

/-- C7 counterexample: the full timetable invariant (slot uniqueness plus
the lab-pair shape) is not preserved: overwriting the first half of a lab
pair with another subject leaves the lab subject on a single slot. -/
theorem timetable_inv_not_preserved :
    TimetableInv [("L", ⟨"lab", 1, true⟩)]
      [("Monday", [⟨3, "L"⟩, ⟨4, "L"⟩])] ∧
    (add_timetable_entry [("L", ⟨"lab", 1, true⟩)]
      [("Monday", [⟨3, "L"⟩, ⟨4, "L"⟩])] "Monday" 3 "X").2 = none ∧
    (add_timetable_entry [("L", ⟨"lab", 1, true⟩)]
      [("Monday", [⟨3, "L"⟩, ⟨4, "L"⟩])] "Monday" 3 "X").1 =
      [("Monday", [⟨3, "X"⟩, ⟨4, "L"⟩])] ∧
    ¬TimetableInv [("L", ⟨"lab", 1, true⟩)]
      [("Monday", [⟨3, "X"⟩, ⟨4, "L"⟩])] := by
  refine ⟨?_, ?_, ?_, ?_⟩ <;> decide

/-- C7 (amended): `add_timetable_entry` (on success and on failure alike)
and `delete_timetable_entry` preserve the slot-uniqueness half of the
invariant: at most one subject occupies a given (weekday, slot). The
lab-pair half is not preserved (see the counterexample). -/
theorem slots_unique_preserved (subjects : List (String × Subject))
    (tt : Timetable) (day : String) (p : ℕ) (code : String)
    (h : SlotsUnique tt) :
    SlotsUnique (add_timetable_entry subjects tt day p code).1 ∧
    SlotsUnique (delete_timetable_entry tt day p code) := by
  constructor
  · by_cases hc : isLab subjects code = true ∧ (7 ≤ p ∨
        (entriesOf (ensureDay tt day) day).any
          (fun e => e.period = p + 1) = true)
    · rw [add_fail_eq subjects tt day p code hc]
      exact slotsUnique_ensureDay tt day h
    · rw [add_ok_eq subjects tt day p code hc]
      intro de hde
      rcases mem_setKey hde with heq | hmem
      · obtain ⟨es, hes⟩ := Option.isSome_iff_exists.mp
          (lookupK_ensureDay_isSome tt day)
        have hent : entriesOf (ensureDay tt day) day = es := by
          unfold entriesOf
          rw [hes]
          rfl
        have hesnodup : (es.map Entry.period).Nodup :=
          slotsUnique_ensureDay tt day h (day, es) (lookupK_mem hes)
        rw [heq]
        show ((sortEntries _).map Entry.period).Nodup
        rw [List.Perm.nodup_iff ((sortEntries_perm _).map Entry.period)]
        rw [List.map_append]
        by_cases hl : isLab subjects code = true
        · rw [if_pos hl, if_pos hl]
          apply List.Nodup.append
          · exact List.Nodup.sublist
              (((List.filter_sublist _).trans
                (List.filter_sublist _)).map Entry.period)
              (hent ▸ hesnodup)
          · simp
          · intro a ha hb
            rcases List.mem_map.mp ha with ⟨e, he, hpe⟩
            rcases List.mem_filter.mp he with ⟨he1, hne1⟩
            rcases List.mem_filter.mp he1 with ⟨_, hne⟩
            simp only [List.map_cons, List.map_nil, List.mem_cons,
              List.not_mem_nil, or_false] at hb
            rcases hb with hb1 | hb1
            · exact absurd (hpe.trans hb1) (by simpa using hne)
            · exact absurd (hpe.trans hb1) (by simpa using hne1)
        · rw [if_neg hl, if_neg hl]
          apply List.Nodup.append
          · exact List.Nodup.sublist
              ((List.filter_sublist _).map Entry.period) (hent ▸ hesnodup)
          · simp
          · intro a ha hb
            rcases List.mem_map.mp ha with ⟨e, he, hpe⟩
            rcases List.mem_filter.mp he with ⟨_, hne⟩
            simp only [List.map_cons, List.map_nil, List.mem_cons,
              List.not_mem_nil, or_false] at hb
            exact absurd (hpe.trans hb) (by simpa using hne)
      · exact slotsUnique_ensureDay tt day h de hmem
  · cases hlk : lookupK tt day with
    | none => rw [delete_none_eq tt day p code hlk]; exact h
    | some es =>
      rw [delete_some_eq tt day p code es hlk]
      split
      · intro de hde
        exact h de (mem_eraseKey hde)
      · intro de hde
        rcases mem_setKey hde with heq | hmem
        · rw [heq]
          exact List.Nodup.sublist
            ((delLoop_sublist p code es).map Entry.period)
            (h (day, es) (lookupK_mem hlk))
        · exact h de hmem

/-- Witness for the amended C7 at a concrete slot-unique timetable. -/
theorem slots_unique_preserved_witness :
    SlotsUnique [("Monday", [⟨3, "L"⟩, ⟨4, "L"⟩])] ∧
    (SlotsUnique (add_timetable_entry [("L", ⟨"lab", 1, true⟩)]
      [("Monday", [⟨3, "L"⟩, ⟨4, "L"⟩])] "Monday" 3 "X").1 ∧
    SlotsUnique (delete_timetable_entry
      [("Monday", [⟨3, "L"⟩, ⟨4, "L"⟩])] "Monday" 3 "X")) :=
  ⟨by decide,
    slots_unique_preserved [("L", ⟨"lab", 1, true⟩)]
      [("Monday", [⟨3, "L"⟩, ⟨4, "L"⟩])] "Monday" 3 "X" (by decide)⟩

/-- C8 counterexample: `delete_timetable_entry` also removes the next entry
whenever it carries the same subject code, even for a non-lab subject on
non-adjacent reasoning grounds: deleting (3, S) from a day holding
(3, S), (4, S) with S not a lab subject removes both entries, not exactly
one. -/
theorem delete_removes_next_same_subject :
    isLab [("S", ⟨"s", 1, false⟩)] "S" = false ∧
    delete_timetable_entry [("Monday", [⟨3, "S"⟩, ⟨4, "S"⟩])] "Monday" 3 "S" =
      ([] : Timetable) ∧
    entriesOf (delete_timetable_entry [("Monday", [⟨3, "S"⟩, ⟨4, "S"⟩])]
      "Monday" 3 "S") "Monday" ≠ [⟨4, "S"⟩] := by
  refine ⟨?_, ?_, ?_⟩ <;> decide

/-- C8 (amended): on a day whose entries occupy pairwise distinct slots,
`delete_timetable_entry(day, slot, S)` removes the entry matching
(slot, S) together with the immediately following entry of the day's list
whenever that following entry carries the same subject code (regardless of
the lab flag or slot adjacency); every other entry of that day, and all
entries of every other day, are unchanged. -/
theorem delete_timetable_entry_frame (tt : Timetable) (day : String)
    (p : ℕ) (code : String) (l1 l2 : List Entry) (e : Entry)
    (hlk : lookupK tt day = some (l1 ++ e :: l2))
    (hnodup : ((l1 ++ e :: l2).map Entry.period).Nodup)
    (hep : e.period = p) (hes : e.subj = code) :
    (∀ d, d ≠ day →
      entriesOf (delete_timetable_entry tt day p code) d = entriesOf tt d) ∧
    entriesOf (delete_timetable_entry tt day p code) day =
      l1 ++ dropNextSame code l2 := by
  have hnd := hnodup
  rw [List.map_append, List.map_cons] at hnd
  obtain ⟨hnd1, hnd2, hdisj⟩ := List.nodup_append.mp hnd
  have hl1 : ∀ f ∈ l1, ¬(f.period = p ∧ f.subj = code) := by
    intro f hf hmatch
    exact hdisj (List.mem_map_of_mem Entry.period hf)
      (by rw [hmatch.1, ← hep]; exact List.mem_cons_self _ _)
  have hl2 : ∀ f ∈ l2, ¬(f.period = p ∧ f.subj = code) := by
    intro f hf hmatch
    have : e.period ∉ l2.map Entry.period := (List.nodup_cons.mp hnd2).1
    exact this (by rw [hep, ← hmatch.1]; exact List.mem_map_of_mem _ hf)
  have hdel : delLoop p code (l1 ++ e :: l2) = l1 ++ dropNextSame code l2 := by
    rw [delLoop_append_no_match p code l1 (e :: l2) hl1]
    congr 1
    rw [delLoop_cons, if_pos ⟨hep, hes⟩]
    cases l2 with
    | nil => rfl
    | cons e2 l2' =>
      show (if e2.subj = code then delLoop p code l2'
        else delLoop p code (e2 :: l2')) =
        (if e2.subj = code then l2' else e2 :: l2')
      split
      · exact delLoop_of_no_match p code l2'
          (fun f hf => hl2 f (List.mem_cons_of_mem e2 hf))
      · exact delLoop_of_no_match p code (e2 :: l2') hl2
  rw [delete_some_eq tt day p code (l1 ++ e :: l2) hlk, hdel]
  split
  · rename_i hempty
    constructor
    · intro d hd
      unfold entriesOf
      rw [lookupK_eraseKey_ne tt day d hd]
    · unfold entriesOf
      rw [lookupK_eraseKey_self tt day, hempty]
      rfl
  · constructor
    · intro d hd
      unfold entriesOf
      rw [lookupK_setKey_ne tt day d _ hd]
    · unfold entriesOf
      rw [lookupK_setKey_self tt day _]
      rfl

/-- Witness for the amended C8 at a concrete three-entry day: deleting the
middle entry keeps the neighbours (the next entry has another subject). -/
theorem delete_timetable_entry_frame_witness :
    (∀ d, d ≠ "Mon" →
      entriesOf (delete_timetable_entry
        [("Mon", [⟨1, "A"⟩, ⟨2, "B"⟩, ⟨3, "C"⟩])] "Mon" 2 "B") d =
      entriesOf [("Mon", [⟨1, "A"⟩, ⟨2, "B"⟩, ⟨3, "C"⟩])] d) ∧
    entriesOf (delete_timetable_entry
      [("Mon", [⟨1, "A"⟩, ⟨2, "B"⟩, ⟨3, "C"⟩])] "Mon" 2 "B") "Mon" =
      [⟨1, "A"⟩] ++ dropNextSame "B" [⟨3, "C"⟩] :=
  delete_timetable_entry_frame [("Mon", [⟨1, "A"⟩, ⟨2, "B"⟩, ⟨3, "C"⟩])]
    "Mon" 2 "B" [⟨1, "A"⟩] [⟨3, "C"⟩] ⟨2, "B"⟩ (by decide) (by decide) rfl rfl
